import Mathlib

/-!
Shallow embedding of the seller-apis repository (seller.py and market.py).

The repository reconciles an external inventory feed (rows with a code
`Код`, a quantity descriptor `Количество` and a price text `Цена`) against
the offer-identifier lists of two marketplaces (Ozon in seller.py, Yandex
Market in market.py), producing stock and price records and uploading them
in fixed-size batches.

Modelling conventions:
* Python exceptions (`ValueError` from `int(...)`, an unmatched pagination
  stream) are modelled with `Option`: `none` means the pass raises and
  produces no records.
* Python's mutation of the caller's `offer_ids` list (`offer_ids.remove`)
  is modelled by explicit state passing: the loop returns the final list
  alongside the records it appended.
* `str(watch.get("Код"))` is the identity here because the feed-row model
  already types the fields as strings (the spec types `code` as a string).
* `datetime.utcnow()` in market.py's `create_stocks` is an environment
  input; it is passed in as the `date` string parameter.
-/

namespace SellerApis

/-! ### A model of Python `int(str)` parsing (base 10)

`int(s)` strips leading/trailing whitespace, accepts an optional sign and
then a non-empty digit sequence in which single underscores may separate
digit groups; anything else raises `ValueError`.  (Non-ASCII digit forms
are outside this model; every string the repository feeds to `int` is
ASCII digits, a sign, or garbage that raises.) -/

/-- Strip leading and trailing whitespace characters, as Python's
`str.strip()` does before `int` parses. -/
def trimChars (cs : List Char) : List Char :=
  ((cs.dropWhile Char.isWhitespace).reverse.dropWhile Char.isWhitespace).reverse

/-- The base-10 value of a digit list (most significant first). -/
def digitsVal (cs : List Char) : Nat :=
  cs.foldl (fun a c => 10 * a + (c.toNat - 48)) 0

/-- After the first digit: digits, with single underscores allowed between
digit groups (Python's numeric-literal underscore rule). -/
def pyIntTail : List Char → Bool
  | [] => true
  | c :: rest =>
    if c = '_' then
      match rest with
      | [] => false
      | c2 :: rest2 => c2.isDigit && pyIntTail rest2
    else c.isDigit && pyIntTail rest

/-- A valid unsigned Python integer body: non-empty, starts with a digit. -/
def pyIntDigits : List Char → Bool
  | [] => false
  | c :: rest => c.isDigit && pyIntTail rest

/-- Remove the underscore digit-group separators before valuation. -/
def stripUnders (cs : List Char) : List Char :=
  cs.filter (fun c => c != '_')

/-- Python `int(s)`: `some` of the parsed integer, `none` for `ValueError`. -/
def pyIntParse (s : String) : Option Int :=
  match trimChars s.data with
  | [] => none
  | c :: rest =>
    if c = '+' then
      if pyIntDigits rest then some (digitsVal (stripUnders rest)) else none
    else if c = '-' then
      if pyIntDigits rest then some (-(digitsVal (stripUnders rest) : Int)) else none
    else if pyIntDigits (c :: rest) then some (digitsVal (stripUnders (c :: rest)))
    else none

/-! ### Data model -/

/-- One row of the external feed (`watch_remnants` entry).  Field names
translate the Russian column keys: `code` = `Код`, `quantity` =
`Количество`, `price` = `Цена`. -/
structure FeedRow where
  code : String
  quantity : String
  price : String
deriving DecidableEq

/-- The quantity rule inlined in both `create_stocks` bodies:
`">10"` publishes 100, `"1"` publishes 0, anything else is `int(...)`. -/
def quantityNormalizer (s : String) : Option Int :=
  if s = ">10" then some 100
  else if s = "1" then some 0
  else pyIntParse s

/-- seller.py `price_conversion`: `re.sub("[^0-9]", "", price.split(".")[0])` —
the substring before the first dot, with every non-digit removed.  Total:
it returns a (possibly empty) digit string and never raises. -/
def priceConversion (s : String) : String :=
  String.mk ((s.data.takeWhile (fun c => c != '.')).filter Char.isDigit)

/-! ### Reconciliation: seller.py `create_stocks` / `create_prices` -/

/-- An Ozon stock record: `{"offer_id": ..., "stock": ...}`. -/
structure SellerStock where
  offer_id : String
  stock : Int
deriving DecidableEq

/-- The feed-row loop of seller.py `create_stocks`: for each row whose
`code` is in `offer_ids`, normalize the quantity, append a record and
`offer_ids.remove(code)` (modelled by `List.erase` on the passed state).
Returns the appended records and the final `offer_ids` list; `none` when
`int(...)` raises. -/
def sellerStocksLoop : List FeedRow → List String → Option (List SellerStock × List String)
  | [], ids => some ([], ids)
  | w :: rest, ids =>
    if w.code ∈ ids then
      match quantityNormalizer w.quantity with
      | none => none
      | some st =>
        (sellerStocksLoop rest (ids.erase w.code)).map
          (fun pr => (⟨w.code, st⟩ :: pr.1, pr.2))
    else sellerStocksLoop rest ids

/-- seller.py `create_stocks`: the matched-row records followed by a
zero-stock record for every offer id left in the (mutated) list. -/
def sellerCreateStocks (feed : List FeedRow) (ids : List String) :
    Option (List SellerStock) :=
  (sellerStocksLoop feed ids).map
    (fun pr => pr.1 ++ pr.2.map (fun i => ⟨i, 0⟩))

/-- An Ozon price record, as built by seller.py `create_prices`; its
`price` field is the raw string `price_conversion` returned. -/
structure SellerPrice where
  auto_action_enabled : String
  currency_code : String
  offer_id : String
  old_price : String
  price : String
deriving DecidableEq

/-- seller.py `create_prices`: one record per feed row whose code is in
`offer_ids` (no removal, no failure — `price_conversion` is total). -/
def sellerCreatePrices : List FeedRow → List String → List SellerPrice
  | [], _ => []
  | w :: rest, ids =>
    if w.code ∈ ids then
      ⟨"UNKNOWN", "RUB", w.code, "0", priceConversion w.price⟩ ::
        sellerCreatePrices rest ids
    else sellerCreatePrices rest ids

/-! ### Reconciliation: market.py `create_stocks` / `create_prices` -/

/-- One entry of a Yandex stock record's `items` list. -/
structure MarketStockItem where
  count : Int
  type : String
  updatedAt : String
deriving DecidableEq

/-- A Yandex stock record: `{"sku", "warehouseId", "items": [...]}`. -/
structure MarketStock where
  sku : String
  warehouseId : String
  items : List MarketStockItem
deriving DecidableEq

/-- The feed-row loop of market.py `create_stocks`: identical control flow
to the seller loop, building the nested Yandex record shape with the
warehouse id and the timestamp string `date`. -/
def marketStocksLoop (wh date : String) :
    List FeedRow → List String → Option (List MarketStock × List String)
  | [], ids => some ([], ids)
  | w :: rest, ids =>
    if w.code ∈ ids then
      match quantityNormalizer w.quantity with
      | none => none
      | some st =>
        (marketStocksLoop wh date rest (ids.erase w.code)).map
          (fun pr => (⟨w.code, wh, [⟨st, "FIT", date⟩]⟩ :: pr.1, pr.2))
    else marketStocksLoop wh date rest ids

/-- market.py `create_stocks`: matched records then zero-count records for
the remaining offer ids. -/
def marketCreateStocks (wh date : String) (feed : List FeedRow)
    (ids : List String) : Option (List MarketStock) :=
  (marketStocksLoop wh date feed ids).map
    (fun pr => pr.1 ++ pr.2.map (fun i => ⟨i, wh, [⟨0, "FIT", date⟩]⟩))

/-- The nested `price` object of a Yandex price record. -/
structure MarketPriceBody where
  value : Int
  currencyId : String
deriving DecidableEq

/-- A Yandex price record: `{"id", "price": {"value", "currencyId"}}`. -/
structure MarketPrice where
  id : String
  price : MarketPriceBody
deriving DecidableEq

/-- market.py `create_prices`: one record per matched row, with
`int(price_conversion(...))` as the value — `none` when that raises. -/
def marketCreatePrices : List FeedRow → List String → Option (List MarketPrice)
  | [], _ => some []
  | w :: rest, ids =>
    if w.code ∈ ids then
      match pyIntParse (priceConversion w.price) with
      | none => none
      | some v =>
        (marketCreatePrices rest ids).map (fun ps => ⟨w.code, ⟨v, "RUR"⟩⟩ :: ps)
    else marketCreatePrices rest ids

/-! ### Batcher: seller.py `divide` -/

/-- The slices `lst[i : i+n]` for `i = 0, n, 2n, ...`: take a chunk of at
most `n`, continue on the rest.  The fuel argument (instantiated with
`lst.length`, enough for any `n ≥ 1`) makes the recursion structural. -/
def divideAux (n : Nat) : Nat → List α → List (List α)
  | 0, _ => []
  | fuel + 1, lst =>
    if lst.isEmpty then []
    else lst.take n :: divideAux n fuel (lst.drop n)

/-- seller.py `divide`: `for i in range(0, len(lst), n): yield lst[i:i+n]`.
`none` models the `ValueError` Python raises for a zero step. -/
def divide (lst : List α) (n : Nat) : Option (List (List α)) :=
  if n = 0 then none else some (divideAux n lst.length lst)

/-! ### Pagination: `get_offer_ids` in both files -/

/-- An item of an Ozon product-list page (only `offer_id` is consumed). -/
structure SellerItem where
  offer_id : String
deriving DecidableEq

/-- One Ozon `get_product_list` response: `items`, the reported grand
`total`, and the `last_id` cursor (threaded but not otherwise used). -/
structure SellerPage where
  items : List SellerItem
  total : Nat
  last_id : String
deriving DecidableEq

/-- The `while True` loop of seller.py `get_offer_ids` over the page
stream the server would return: extend the accumulator with the page's
items and stop when the page's `total` equals the accumulated length.
`none` models the loop requesting a page beyond the given stream. -/
def sellerPagesLoop : List SellerPage → List SellerItem → Option (List SellerItem)
  | [], _ => none
  | p :: rest, acc =>
    let acc2 := acc ++ p.items
    if p.total = acc2.length then some acc2 else sellerPagesLoop rest acc2

/-- seller.py `get_offer_ids`: the `offer_id` of every accumulated item. -/
def sellerGetOfferIds (pages : List SellerPage) : Option (List String) :=
  (sellerPagesLoop pages []).map (fun items => items.map SellerItem.offer_id)

/-- The `offer` object of a Yandex offer-mapping entry. -/
structure MarketOffer where
  shopSku : String
deriving DecidableEq

/-- One Yandex `offerMappingEntries` element (only `offer.shopSku` is
consumed). -/
structure MarketEntry where
  offer : MarketOffer
deriving DecidableEq

/-- One Yandex page: entries plus `paging.nextPageToken` (`""` models the
missing/empty token that ends the loop, Python's `if not page`). -/
structure MarketPage where
  offerMappingEntries : List MarketEntry
  nextPageToken : String
deriving DecidableEq

/-- The `while True` loop of market.py `get_offer_ids`: extend with the
page's entries and stop when the next-page token is empty. -/
def marketPagesLoop : List MarketPage → List MarketEntry → Option (List MarketEntry)
  | [], _ => none
  | p :: rest, acc =>
    let acc2 := acc ++ p.offerMappingEntries
    if p.nextPageToken = "" then some acc2 else marketPagesLoop rest acc2

/-- market.py `get_offer_ids`: the `shopSku` of every accumulated entry. -/
def marketGetOfferIds (pages : List MarketPage) : Option (List String) :=
  (marketPagesLoop pages []).map (fun es => es.map (fun e => e.offer.shopSku))

/-! ### Upload pipeline: `upload_stocks` in both files

The network calls (`update_stocks` chunk uploads) are transport
collaborators with no effect on the returned value; the functional content
is: build the stocks, then pair the non-zero subsequence with the full
list. -/

/-- seller.py `upload_stocks` return value `(not_empty, stocks)` where
`not_empty = filter(lambda stock: stock.get("stock") != 0, stocks)`. -/
def sellerUploadStocks (feed : List FeedRow) (ids : List String) :
    Option (List SellerStock × List SellerStock) :=
  (sellerCreateStocks feed ids).map
    (fun stocks => (stocks.filter (fun s => s.stock != 0), stocks))

/-- The filter predicate of market.py `upload_stocks`:
`stock.get("items")[0].get("count") != 0`.  The records built by
`create_stocks` always carry exactly one item; an empty `items` list
(which would raise `IndexError` in Python) is mapped to `true`. -/
def marketStockNonEmpty (s : MarketStock) : Bool :=
  match s.items with
  | it :: _ => it.count != 0
  | [] => true

/-- market.py `upload_stocks` return value `(not_empty, stocks)`. -/
def marketUploadStocks (wh date : String) (feed : List FeedRow)
    (ids : List String) : Option (List MarketStock × List MarketStock) :=
  (marketCreateStocks wh date feed ids).map
    (fun stocks => (stocks.filter marketStockNonEmpty, stocks))

/-! ### The condition under which reconciliation fails

`hasBadQuantity` mirrors the stock loop's state: a row is *matched* when
its code is still in the remaining list at the moment the loop reaches it
(a duplicate code whose id was already consumed is not matched). -/

/-- Some feed row is matched against the remaining offer-id list and its
quantity descriptor fails `int` parsing (and is neither sentinel). -/
def hasBadQuantity : List FeedRow → List String → Bool
  | [], _ => false
  | w :: rest, ids =>
    if w.code ∈ ids then
      match quantityNormalizer w.quantity with
      | none => true
      | some _ => hasBadQuantity rest (ids.erase w.code)
    else hasBadQuantity rest ids

/-! ### Facts about the Python int model on digit strings -/

theorem isDigit_not_whitespace {c : Char} (h : c.isDigit = true) :
    c.isWhitespace = false := by
  by_contra hw
  rw [Bool.not_eq_false] at hw
  simp only [Char.isWhitespace, Bool.or_eq_true, decide_eq_true_eq] at hw
  rcases hw with ((rfl | rfl) | rfl) | rfl <;> exact absurd h (by decide)

theorem dropWhile_eq_self_of_not {p : Char → Bool} :
    ∀ cs : List Char, (∀ c ∈ cs, p c = false) → cs.dropWhile p = cs
  | [], _ => rfl
  | c :: rest, h => by
    have hc : p c = false := h c (by simp)
    simp [List.dropWhile, hc]

theorem trimChars_of_digits (cs : List Char)
    (h : ∀ c ∈ cs, c.isDigit = true) : trimChars cs = cs := by
  unfold trimChars
  rw [dropWhile_eq_self_of_not cs (fun c hc => isDigit_not_whitespace (h c hc))]
  rw [dropWhile_eq_self_of_not cs.reverse
    (fun c hc => isDigit_not_whitespace (h c (List.mem_reverse.mp hc)))]
  exact List.reverse_reverse cs

theorem pyIntTail_of_digits :
    ∀ cs : List Char, (∀ c ∈ cs, c.isDigit = true) → pyIntTail cs = true
  | [], _ => rfl
  | c :: rest, h => by
    have hc : c.isDigit = true := h c (by simp)
    have hne : ¬(c = '_') := by intro he; subst he; exact absurd hc (by decide)
    unfold pyIntTail
    rw [if_neg hne, hc, pyIntTail_of_digits rest (fun x hx => h x (by simp [hx]))]
    rfl

theorem stripUnders_of_digits (cs : List Char)
    (h : ∀ c ∈ cs, c.isDigit = true) : stripUnders cs = cs := by
  unfold stripUnders
  apply List.filter_eq_self.mpr
  intro c hc
  have hcd := h c hc
  have hne : ¬(c = '_') := by intro he; subst he; exact absurd hcd (by decide)
  simpa using hne

theorem pyIntParse_of_digits (c : Char) (rest : List Char)
    (h : ∀ x ∈ c :: rest, x.isDigit = true) :
    pyIntParse (String.mk (c :: rest)) = some (digitsVal (c :: rest)) := by
  have hc : c.isDigit = true := h c (by simp)
  have hcp : ¬(c = '+') := by intro he; subst he; exact absurd hc (by decide)
  have hcm : ¬(c = '-') := by intro he; subst he; exact absurd hc (by decide)
  have hdig : pyIntDigits (c :: rest) = true := by
    show (c.isDigit && pyIntTail (c :: rest).tail) = true
    rw [hc, List.tail_cons, pyIntTail_of_digits rest (fun x hx => h x (by simp [hx]))]
    rfl
  unfold pyIntParse
  rw [show (String.mk (c :: rest)).data = c :: rest from rfl]
  rw [trimChars_of_digits _ h]
  simp [hcp, hcm, hdig, stripUnders_of_digits _ h]

/-! ### Characterizing the price text normalization, and the stock-loop invariant -/

theorem pyIntParse_priceConversion (s : String) :
    pyIntParse (priceConversion s) =
      if priceConversion s = "" then none
      else some ((digitsVal (priceConversion s).data : Int)) := by
  by_cases he : priceConversion s = ""
  · rw [if_pos he, he]; decide
  · rw [if_neg he]
    have hne : (priceConversion s).data ≠ [] := by
      intro h0
      exact he (String.ext (h0.trans rfl))
    obtain ⟨c, rest, hcr⟩ := List.exists_cons_of_ne_nil hne
    have hstr : priceConversion s = String.mk (c :: rest) := String.ext (by rw [hcr])
    have hd : ∀ x ∈ c :: rest, x.isDigit = true := by
      intro x hx
      rw [← hcr] at hx
      exact List.of_mem_filter hx
    rw [hstr]
    exact pyIntParse_of_digits c rest hd

theorem sellerStocksLoop_perm :
    ∀ (feed : List FeedRow) (ids : List String) (recs : List SellerStock)
      (rem : List String),
      sellerStocksLoop feed ids = some (recs, rem) →
      (recs.map SellerStock.offer_id ++ rem).Perm ids ∧ rem.Sublist ids
  | [], ids, recs, rem, h => by
    simp only [sellerStocksLoop, Option.some.injEq, Prod.mk.injEq] at h
    obtain ⟨rfl, rfl⟩ := h
    exact ⟨by simp, List.Sublist.refl ids⟩
  | w :: rest, ids, recs, rem, h => by
    by_cases hm : w.code ∈ ids
    · simp only [sellerStocksLoop, if_pos hm] at h
      cases hq : quantityNormalizer w.quantity with
      | none => rw [hq] at h; exact absurd h (by simp)
      | some st =>
        rw [hq, Option.map_eq_some'] at h
        obtain ⟨⟨recs', rem'⟩, hl, heq⟩ := h
        cases heq
        obtain ⟨hp, hs⟩ := sellerStocksLoop_perm rest (ids.erase w.code) recs' rem' hl
        refine ⟨?_, hs.trans (List.erase_sublist _ _)⟩
        have : (((⟨w.code, st⟩ : SellerStock) :: recs').map SellerStock.offer_id ++ rem')
            = w.code :: (recs'.map SellerStock.offer_id ++ rem') := by simp
        rw [this]
        exact (hp.cons w.code).trans (List.perm_cons_erase hm).symm
    · simp only [sellerStocksLoop, if_neg hm] at h
      exact sellerStocksLoop_perm rest ids recs rem h


/-- The market stock record built for a matched or zero-filled offer. -/
def toMarketStock (wh date : String) (s : SellerStock) : MarketStock :=
  ⟨s.offer_id, wh, [⟨s.stock, "FIT", date⟩]⟩

theorem marketStocksLoop_eq_seller (wh date : String) :
    ∀ (feed : List FeedRow) (ids : List String),
      marketStocksLoop wh date feed ids =
        (sellerStocksLoop feed ids).map
          (fun pr => (pr.1.map (toMarketStock wh date), pr.2))
  | [], ids => by simp [marketStocksLoop, sellerStocksLoop]
  | w :: rest, ids => by
    by_cases hm : w.code ∈ ids
    · simp only [marketStocksLoop, sellerStocksLoop, if_pos hm]
      cases hq : quantityNormalizer w.quantity with
      | none => rfl
      | some st =>
        rw [marketStocksLoop_eq_seller wh date rest (ids.erase w.code)]
        cases hl : sellerStocksLoop rest (ids.erase w.code) with
        | none => rfl
        | some pr => rfl
    · simp only [marketStocksLoop, sellerStocksLoop, if_neg hm]
      exact marketStocksLoop_eq_seller wh date rest ids

theorem marketCreateStocks_eq_seller (wh date : String)
    (feed : List FeedRow) (ids : List String) :
    marketCreateStocks wh date feed ids =
      (sellerCreateStocks feed ids).map (List.map (toMarketStock wh date)) := by
  unfold marketCreateStocks sellerCreateStocks
  rw [marketStocksLoop_eq_seller]
  cases sellerStocksLoop feed ids with
  | none => rfl
  | some pr => simp [toMarketStock]

theorem sellerStocksLoop_none_iff :
    ∀ (feed : List FeedRow) (ids : List String),
      sellerStocksLoop feed ids = none ↔ hasBadQuantity feed ids = true
  | [], ids => by simp [sellerStocksLoop, hasBadQuantity]
  | w :: rest, ids => by
    by_cases hm : w.code ∈ ids
    · simp only [sellerStocksLoop, hasBadQuantity, if_pos hm]
      cases hq : quantityNormalizer w.quantity with
      | none => simp
      | some st =>
        rw [Option.map_eq_none']
        exact sellerStocksLoop_none_iff rest (ids.erase w.code)
    · simp only [sellerStocksLoop, hasBadQuantity, if_neg hm]
      exact sellerStocksLoop_none_iff rest ids

theorem sellerCreateStocks_none_iff (feed : List FeedRow) (ids : List String) :
    sellerCreateStocks feed ids = none ↔ hasBadQuantity feed ids = true := by
  unfold sellerCreateStocks
  rw [Option.map_eq_none']
  exact sellerStocksLoop_none_iff feed ids

theorem sellerStocksLoop_keeps_unmatched :
    ∀ (feed : List FeedRow) (ids : List String) (recs : List SellerStock)
      (rem : List String) (oid : String),
      oid ∈ ids → (∀ r ∈ feed, r.code ≠ oid) →
      sellerStocksLoop feed ids = some (recs, rem) → oid ∈ rem
  | [], ids, recs, rem, oid, hin, _, h => by
    simp only [sellerStocksLoop, Option.some.injEq, Prod.mk.injEq] at h
    obtain ⟨rfl, rfl⟩ := h
    exact hin
  | w :: rest, ids, recs, rem, oid, hin, hno, h => by
    by_cases hm : w.code ∈ ids
    · simp only [sellerStocksLoop, if_pos hm] at h
      cases hq : quantityNormalizer w.quantity with
      | none => rw [hq] at h; exact absurd h (by simp)
      | some st =>
        rw [hq, Option.map_eq_some'] at h
        obtain ⟨⟨recs', rem'⟩, hl, heq⟩ := h
        cases heq
        have hnw : w.code ≠ oid := hno w (by simp)
        exact sellerStocksLoop_keeps_unmatched rest (ids.erase w.code) recs' rem' oid
          (List.mem_erase_of_ne (fun he => hnw he.symm) |>.mpr hin)
          (fun r hr => hno r (by simp [hr])) hl
    · simp only [sellerStocksLoop, if_neg hm] at h
      exact sellerStocksLoop_keeps_unmatched rest ids recs rem oid hin
        (fun r hr => hno r (by simp [hr])) h


theorem sellerStocksLoop_of_no_match :
    ∀ (feed : List FeedRow) (ids : List String),
      (∀ r ∈ feed, r.code ∉ ids) →
      sellerStocksLoop feed ids = some ([], ids)
  | [], ids, _ => rfl
  | w :: rest, ids, hno => by
    have hm : w.code ∉ ids := hno w (by simp)
    simp only [sellerStocksLoop, if_neg hm]
    exact sellerStocksLoop_of_no_match rest ids (fun r hr => hno r (by simp [hr]))

theorem sellerStocksLoop_shrinks :
    ∀ (feed : List FeedRow) (ids : List String) (recs : List SellerStock)
      (rem : List String) (r : FeedRow),
      r ∈ feed → r.code ∈ ids →
      sellerStocksLoop feed ids = some (recs, rem) → rem.length < ids.length
  | [], _, _, _, r, hr, _, _ => absurd hr (List.not_mem_nil r)
  | w :: rest, ids, recs, rem, r, hr, hrin, h => by
    by_cases hm : w.code ∈ ids
    · simp only [sellerStocksLoop, if_pos hm] at h
      cases hq : quantityNormalizer w.quantity with
      | none => rw [hq] at h; exact absurd h (by simp)
      | some st =>
        rw [hq, Option.map_eq_some'] at h
        obtain ⟨⟨recs', rem'⟩, hl, heq⟩ := h
        cases heq
        have hsub : rem'.Sublist (ids.erase w.code) :=
          (sellerStocksLoop_perm rest (ids.erase w.code) recs' rem' hl).2
        have hlen : rem'.length ≤ (ids.erase w.code).length := hsub.length_le
        have := List.length_erase_of_mem hm
        have hpos : 0 < ids.length := List.length_pos_of_mem hm
        show rem'.length < ids.length
        omega
    · simp only [sellerStocksLoop, if_neg hm] at h
      rcases List.mem_cons.mp hr with rfl | hr2
      · exact absurd hrin hm
      · exact sellerStocksLoop_shrinks rest ids recs rem r hr2 hrin h

theorem sellerStocksLoop_ids_eq_iff (feed : List FeedRow) (ids : List String)
    (recs : List SellerStock) (rem : List String)
    (h : sellerStocksLoop feed ids = some (recs, rem)) :
    rem = ids ↔ ∀ r ∈ feed, r.code ∉ ids := by
  constructor
  · intro hrem
    by_contra hex
    push_neg at hex
    obtain ⟨r, hr, hrin⟩ := hex
    have := sellerStocksLoop_shrinks feed ids recs rem r hr hrin h
    rw [hrem] at this
    omega
  · intro hno
    rw [sellerStocksLoop_of_no_match feed ids hno] at h
    simp only [Option.some.injEq, Prod.mk.injEq] at h
    exact h.2.symm


/-! ### Pagination hypotheses: a page stream whose continuation signal is
first satisfied at its final page -/

/-- The Ozon count-based continuation: with `n` offers already
accumulated, each page before the last reports a `total` different from
the new running count, and the final page's `total` matches it. -/
def sellerPagesEnd : List SellerPage → Nat → Bool
  | [], _ => false
  | p :: rest, n =>
    if p.total = n + p.items.length then rest.isEmpty
    else sellerPagesEnd rest (n + p.items.length)

/-- The Yandex token-based continuation: every page before the last
carries a non-empty `nextPageToken`, the final page an empty one. -/
def marketPagesEnd : List MarketPage → Bool
  | [] => false
  | p :: rest =>
    if p.nextPageToken = "" then rest.isEmpty else marketPagesEnd rest

theorem sellerPagesLoop_of_end :
    ∀ (pages : List SellerPage) (acc : List SellerItem),
      sellerPagesEnd pages acc.length = true →
      sellerPagesLoop pages acc = some (acc ++ (pages.map SellerPage.items).flatten)
  | [], _, h => by simp [sellerPagesEnd] at h
  | p :: rest, acc, h => by
    simp only [sellerPagesEnd] at h
    simp only [sellerPagesLoop]
    by_cases hc : p.total = (acc ++ p.items).length
    · rw [if_pos hc]
      rw [List.length_append] at hc
      rw [if_pos hc, List.isEmpty_iff] at h
      subst h
      simp
    · rw [if_neg hc]
      rw [List.length_append] at hc
      rw [if_neg hc] at h
      have := sellerPagesLoop_of_end rest (acc ++ p.items) (by simpa using h)
      rw [this]
      simp

theorem marketPagesLoop_of_end :
    ∀ (pages : List MarketPage) (acc : List MarketEntry),
      marketPagesEnd pages = true →
      marketPagesLoop pages acc =
        some (acc ++ (pages.map MarketPage.offerMappingEntries).flatten)
  | [], _, h => by simp [marketPagesEnd] at h
  | p :: rest, acc, h => by
    simp only [marketPagesEnd] at h
    simp only [marketPagesLoop]
    by_cases hc : p.nextPageToken = ""
    · rw [if_pos hc]
      rw [if_pos hc, List.isEmpty_iff] at h
      subst h
      simp
    · rw [if_neg hc]
      rw [if_neg hc] at h
      rw [marketPagesLoop_of_end rest (acc ++ p.offerMappingEntries) h]
      simp

/-! ### Chunking facts for `divide` -/

theorem divideAux_flatten {α : Type} (n : Nat) (hn : 0 < n) :
    ∀ (fuel : Nat) (lst : List α), lst.length ≤ fuel →
      (divideAux n fuel lst).flatten = lst
  | 0, lst, h => by
    have : lst = [] := List.eq_nil_of_length_eq_zero (Nat.le_zero.mp h)
    subst this
    rfl
  | fuel + 1, lst, h => by
    by_cases he : lst.isEmpty
    · rw [List.isEmpty_iff] at he
      subst he
      rfl
    · simp only [divideAux, if_neg he]
      rw [List.isEmpty_iff] at he
      have hlen : (lst.drop n).length ≤ fuel := by
        rw [List.length_drop]
        have : 0 < lst.length := List.length_pos.mpr he
        omega
      rw [List.flatten_cons, divideAux_flatten n hn fuel (lst.drop n) hlen,
        List.take_append_drop]

theorem divideAux_chunk_le {α : Type} (n : Nat) :
    ∀ (fuel : Nat) (lst : List α) (c : List α),
      c ∈ divideAux n fuel lst → c.length ≤ n
  | 0, _, _, h => absurd h (List.not_mem_nil _)
  | fuel + 1, lst, c, h => by
    by_cases he : lst.isEmpty
    · simp only [divideAux, if_pos he] at h
      exact absurd h (List.not_mem_nil _)
    · simp only [divideAux, if_neg he] at h
      rcases List.mem_cons.mp h with rfl | h2
      · rw [List.length_take]
        omega
      · exact divideAux_chunk_le n fuel (lst.drop n) c h2

theorem divideAux_nil {α : Type} (n : Nat) :
    ∀ fuel : Nat, divideAux n fuel ([] : List α) = []
  | 0 => rfl
  | _ + 1 => rfl

theorem divideAux_full_chunks {α : Type} (n : Nat) (hn : 0 < n) :
    ∀ (fuel : Nat) (lst : List α) (i : Nat), lst.length ≤ fuel →
      i + 1 < (divideAux n fuel lst).length →
      ((divideAux n fuel lst).getD i []).length = n
  | 0, _, _, _, hi => by simp [divideAux] at hi
  | fuel + 1, lst, i, h, hi => by
    by_cases he : lst.isEmpty
    · simp [divideAux, if_pos he] at hi
    · simp only [divideAux, if_neg he] at hi ⊢
      rw [List.isEmpty_iff] at he
      cases i with
      | zero =>
        have hrest : divideAux n fuel (lst.drop n) ≠ [] := by
          intro h0
          rw [List.length_cons, h0] at hi
          simp at hi
        have hdrop : lst.drop n ≠ [] := by
          intro h0
          rw [h0, divideAux_nil] at hrest
          exact hrest rfl
        have hlong : n < lst.length := by
          by_contra hle
          push_neg at hle
          exact hdrop (List.drop_eq_nil_of_le hle)
        simp only [List.getD_cons_zero, List.length_take]
        omega
      | succ j =>
        rw [List.getD_cons_succ]
        have hlen : (lst.drop n).length ≤ fuel := by
          rw [List.length_drop]
          have : 0 < lst.length := List.length_pos.mpr he
          omega
        exact divideAux_full_chunks n hn fuel (lst.drop n) j hlen
          (by rw [List.length_cons] at hi; omega)

/-! ### Record-level facts about the emitted prices and counts -/

theorem sellerCreatePrices_mem_src :
    ∀ (feed : List FeedRow) (ids : List String) (p : SellerPrice),
      p ∈ sellerCreatePrices feed ids →
      ∃ r ∈ feed, r.code ∈ ids ∧
        p = ⟨"UNKNOWN", "RUB", r.code, "0", priceConversion r.price⟩
  | [], _, p, h => absurd h (List.not_mem_nil p)
  | w :: rest, ids, p, h => by
    by_cases hm : w.code ∈ ids
    · simp only [sellerCreatePrices, if_pos hm] at h
      rcases List.mem_cons.mp h with rfl | h2
      · exact ⟨w, by simp, hm, rfl⟩
      · obtain ⟨r, hr, hrin, hp⟩ := sellerCreatePrices_mem_src rest ids p h2
        exact ⟨r, by simp [hr], hrin, hp⟩
    · simp only [sellerCreatePrices, if_neg hm] at h
      obtain ⟨r, hr, hrin, hp⟩ := sellerCreatePrices_mem_src rest ids p h
      exact ⟨r, by simp [hr], hrin, hp⟩

theorem marketCreatePrices_none_iff :
    ∀ (feed : List FeedRow) (ids : List String),
      marketCreatePrices feed ids = none ↔
        (feed.any fun r => decide (r.code ∈ ids) && (priceConversion r.price == "")) = true
  | [], ids => by simp [marketCreatePrices]
  | w :: rest, ids => by
    by_cases hm : w.code ∈ ids
    · simp only [marketCreatePrices, if_pos hm, List.any_cons]
      rw [decide_eq_true hm, Bool.true_and]
      cases hq : pyIntParse (priceConversion w.price) with
      | none =>
        have hw : priceConversion w.price = "" := by
          have := pyIntParse_priceConversion w.price
          rw [hq] at this
          by_contra hne
          rw [if_neg hne] at this
          exact Option.noConfusion this
        simp [hw]
      | some v =>
        have hw : ¬(priceConversion w.price = "") := by
          intro he
          have := pyIntParse_priceConversion w.price
          rw [hq, if_pos he] at this
          exact Option.noConfusion this
        rw [Option.map_eq_none']
        rw [marketCreatePrices_none_iff rest ids]
        simp [hw]
    · simp only [marketCreatePrices, if_neg hm, List.any_cons]
      rw [decide_eq_false hm, Bool.false_and, Bool.false_or]
      exact marketCreatePrices_none_iff rest ids

theorem marketCreatePrices_mem :
    ∀ (feed : List FeedRow) (ids : List String) (ps : List MarketPrice)
      (p : MarketPrice),
      marketCreatePrices feed ids = some ps → p ∈ ps →
      0 ≤ p.price.value ∧ p.price.currencyId = "RUR"
  | [], _, ps, p, h, hp => by
    simp only [marketCreatePrices, Option.some.injEq] at h
    subst h
    exact absurd hp (List.not_mem_nil p)
  | w :: rest, ids, ps, p, h, hp => by
    by_cases hm : w.code ∈ ids
    · simp only [marketCreatePrices, if_pos hm] at h
      cases hq : pyIntParse (priceConversion w.price) with
      | none => rw [hq] at h; exact absurd h (by simp)
      | some v =>
        rw [hq, Option.map_eq_some'] at h
        obtain ⟨ps', hl, heq⟩ := h
        subst heq
        rcases List.mem_cons.mp hp with rfl | hp2
        · refine ⟨?_, rfl⟩
          have := pyIntParse_priceConversion w.price
          rw [hq] at this
          by_cases he : priceConversion w.price = ""
          · rw [if_pos he] at this; exact absurd this (by simp)
          · rw [if_neg he] at this
            have hv : v = ((digitsVal (priceConversion w.price).data : Nat) : Int) := by
              simpa using this
            show (0 : Int) ≤ v
            rw [hv]
            exact Int.natCast_nonneg _
        · exact marketCreatePrices_mem rest ids ps' p hl hp2
    · simp only [marketCreatePrices, if_neg hm] at h
      exact marketCreatePrices_mem rest ids ps p h hp

theorem sellerStocksLoop_counts :
    ∀ (feed : List FeedRow) (ids : List String) (recs : List SellerStock)
      (rem : List String),
      (∀ r ∈ feed, ∀ m : Int, quantityNormalizer r.quantity = some m → 0 ≤ m) →
      sellerStocksLoop feed ids = some (recs, rem) →
      ∀ s ∈ recs, 0 ≤ s.stock
  | [], ids, recs, rem, _, h, s, hs => by
    simp only [sellerStocksLoop, Option.some.injEq, Prod.mk.injEq] at h
    obtain ⟨rfl, rfl⟩ := h
    exact absurd hs (List.not_mem_nil s)
  | w :: rest, ids, recs, rem, hq, h, s, hs => by
    by_cases hm : w.code ∈ ids
    · simp only [sellerStocksLoop, if_pos hm] at h
      cases hqn : quantityNormalizer w.quantity with
      | none => rw [hqn] at h; exact absurd h (by simp)
      | some st =>
        rw [hqn, Option.map_eq_some'] at h
        obtain ⟨⟨recs', rem'⟩, hl, heq⟩ := h
        cases heq
        rcases List.mem_cons.mp hs with rfl | hs2
        · exact hq w (by simp) st hqn
        · exact sellerStocksLoop_counts rest (ids.erase w.code) recs' rem'
            (fun r hr => hq r (by simp [hr])) hl s hs2
    · simp only [sellerStocksLoop, if_neg hm] at h
      exact sellerStocksLoop_counts rest ids recs rem
        (fun r hr => hq r (by simp [hr])) h s hs

theorem sellerCreateStocks_counts (feed : List FeedRow) (ids : List String)
    (stocks : List SellerStock)
    (hq : ∀ r ∈ feed, ∀ m : Int, quantityNormalizer r.quantity = some m → 0 ≤ m)
    (h : sellerCreateStocks feed ids = some stocks) :
    ∀ s ∈ stocks, 0 ≤ s.stock := by
  unfold sellerCreateStocks at h
  rw [Option.map_eq_some'] at h
  obtain ⟨⟨recs, rem⟩, hl, heq⟩ := h
  subst heq
  intro s hs
  rcases List.mem_append.mp hs with hs1 | hs2
  · exact sellerStocksLoop_counts feed ids recs rem hq hl s hs1
  · obtain ⟨i, _, rfl⟩ := List.mem_map.mp hs2
    exact le_refl 0

/-! ## Claim theorems -/

/-- The spec's price example `"5'990.00 руб."`, built character by
character (`Char.ofNat 39` is the apostrophe thousands separator). -/
def rubPriceText : String :=
  String.mk ['5', Char.ofNat 39, '9', '9', '0', '.', '0', '0', ' ', 'р', 'у', 'б', '.']

/-- Zero-filled records carry their offer id unchanged. -/
theorem map_offer_id_zero_fill (rem : List String) :
    ((rem.map fun i => (⟨i, 0⟩ : SellerStock)).map SellerStock.offer_id) = rem := by
  induction rem with
  | nil => rfl
  | cons a t ih => simp only [List.map_cons, ih]

/-- C1: for a duplicate-free offer-id list and any feed on which
normalization succeeds, both marketplaces' `create_stocks` emit exactly
`ids.length` stock records, their offer identifiers are a permutation of
the known identifiers (one record per known offer id), and no identifier
appears in two records — duplicate feed codes included. -/
theorem c1_reconciliation_completeness (feed : List FeedRow) (ids : List String)
    (stocks : List SellerStock) (mstocks : List MarketStock) (wh date : String)
    (hN : ids.Nodup)
    (hs : sellerCreateStocks feed ids = some stocks)
    (hm : marketCreateStocks wh date feed ids = some mstocks) :
    stocks.length = ids.length ∧
    (stocks.map SellerStock.offer_id).Perm ids ∧
    (stocks.map SellerStock.offer_id).Nodup ∧
    mstocks.length = ids.length ∧
    (mstocks.map MarketStock.sku).Perm ids ∧
    (mstocks.map MarketStock.sku).Nodup := by
  unfold sellerCreateStocks at hs
  rw [Option.map_eq_some'] at hs
  obtain ⟨⟨recs, rem⟩, hl, heq⟩ := hs
  subst heq
  have hzf := map_offer_id_zero_fill rem
  have hperm : ((recs ++ rem.map fun i => (⟨i, 0⟩ : SellerStock)).map SellerStock.offer_id).Perm ids := by
    rw [List.map_append, hzf]
    exact (sellerStocksLoop_perm feed ids recs rem hl).1
  have hnd : ((recs ++ rem.map fun i => (⟨i, 0⟩ : SellerStock)).map SellerStock.offer_id).Nodup :=
    hperm.nodup_iff.mpr hN
  have hlen : (recs ++ rem.map fun i => (⟨i, 0⟩ : SellerStock)).length = ids.length := by
    have := hperm.length_eq
    simpa using this
  have hms : mstocks = (recs ++ rem.map fun i => (⟨i, 0⟩ : SellerStock)).map (toMarketStock wh date) := by
    rw [marketCreateStocks_eq_seller] at hm
    rw [show sellerCreateStocks feed ids
        = some (recs ++ rem.map fun i => (⟨i, 0⟩ : SellerStock)) by
      unfold sellerCreateStocks
      rw [hl]
      rfl] at hm
    simpa using hm.symm
  have hmsku : mstocks.map MarketStock.sku
      = (recs ++ rem.map fun i => (⟨i, 0⟩ : SellerStock)).map SellerStock.offer_id := by
    rw [hms, List.map_map]
    rfl
  refine ⟨hlen, hperm, hnd, ?_, ?_, ?_⟩
  · rw [hms, List.length_map]
    exact hlen
  · rw [hmsku]
    exact hperm
  · rw [hmsku]
    exact hnd

/-- C1 witness: a concrete run with a duplicate feed code and two known
offer ids yields two records with distinct identifiers. -/
theorem c1_witness :
    ([⟨"A", 100⟩, ⟨"B", 0⟩] : List SellerStock).length = (["A", "B"] : List String).length ∧
    (([⟨"A", 100⟩, ⟨"B", 0⟩] : List SellerStock).map SellerStock.offer_id).Perm ["A", "B"] ∧
    (([⟨"A", 100⟩, ⟨"B", 0⟩] : List SellerStock).map SellerStock.offer_id).Nodup ∧
    ([⟨"A", "w", [⟨100, "FIT", "d"⟩]⟩, ⟨"B", "w", [⟨0, "FIT", "d"⟩]⟩] : List MarketStock).length
      = (["A", "B"] : List String).length ∧
    (([⟨"A", "w", [⟨100, "FIT", "d"⟩]⟩, ⟨"B", "w", [⟨0, "FIT", "d"⟩]⟩] : List MarketStock).map
      MarketStock.sku).Perm ["A", "B"] ∧
    (([⟨"A", "w", [⟨100, "FIT", "d"⟩]⟩, ⟨"B", "w", [⟨0, "FIT", "d"⟩]⟩] : List MarketStock).map
      MarketStock.sku).Nodup :=
  c1_reconciliation_completeness
    [⟨"A", ">10", "9.00"⟩, ⟨"A", "abc", "9.00"⟩] ["A", "B"]
    [⟨"A", 100⟩, ⟨"B", 0⟩]
    [⟨"A", "w", [⟨100, "FIT", "d"⟩]⟩, ⟨"B", "w", [⟨0, "FIT", "d"⟩]⟩]
    "w" "d" (by decide) (by decide) (by decide)


/-- C2: the quantity rule maps `">10"` to 100 and `"1"` to 0; every other
descriptor is handed to Python `int` parsing, so it yields exactly the
parsed base-10 integer and fails exactly when the descriptor is not
parseable (e.g. `"abc"`). -/
theorem c2_quantity_mapping (s : String) (hgt : s ≠ ">10") (h1 : s ≠ "1") :
    quantityNormalizer ">10" = some 100 ∧
    quantityNormalizer "1" = some 0 ∧
    quantityNormalizer "7" = some 7 ∧
    quantityNormalizer "abc" = none ∧
    quantityNormalizer s = pyIntParse s ∧
    (quantityNormalizer s = none ↔ pyIntParse s = none) := by
  refine ⟨by decide, by decide, by decide, by decide, ?_, ?_⟩
  · unfold quantityNormalizer
    rw [if_neg hgt, if_neg h1]
  · unfold quantityNormalizer
    rw [if_neg hgt, if_neg h1]

/-- C2 witness: at the non-sentinel descriptor `"42"`. -/
theorem c2_witness :
    quantityNormalizer ">10" = some 100 ∧
    quantityNormalizer "1" = some 0 ∧
    quantityNormalizer "7" = some 7 ∧
    quantityNormalizer "abc" = none ∧
    quantityNormalizer "42" = pyIntParse "42" ∧
    (quantityNormalizer "42" = none ↔ pyIntParse "42" = none) :=
  c2_quantity_mapping "42" (by decide) (by decide)

/-- C3 counterexample: the claim says the price normalizer fails with
`InvalidPrice` on `"n/a"` (empty after stripping), but seller.py's
`price_conversion` returns the empty string and `create_prices` emits a
record whose price is `""` instead of failing. -/
theorem c3_counterexample :
    priceConversion "n/a" = "" ∧
    sellerCreatePrices [⟨"A", "5", "n/a"⟩] ["A"]
      = [⟨"UNKNOWN", "RUB", "A", "0", ""⟩] := by decide

/-- C3 amended: `price_conversion` keeps the digits of the substring
before the first dot (`"5'990.00 руб."` ↦ `"5990"`, `"12.50"` ↦ `"12"`);
the market variant parses that digit string with `int`, which succeeds
with its base-10 value exactly when it is non-empty (so `"n/a"` fails
there with `ValueError`), while the seller variant emits the raw —
possibly empty — digit string without failing. -/
theorem c3_price_normalization :
    priceConversion rubPriceText = "5990" ∧
    pyIntParse (priceConversion rubPriceText) = some 5990 ∧
    priceConversion "12.50" = "12" ∧
    pyIntParse (priceConversion "12.50") = some 12 ∧
    priceConversion "n/a" = "" ∧
    pyIntParse (priceConversion "n/a") = none ∧
    (∀ s, pyIntParse (priceConversion s) = none ↔ priceConversion s = "") ∧
    (∀ s, ∀ v : Int, pyIntParse (priceConversion s) = some v →
      v = ((digitsVal (priceConversion s).data : Nat) : Int) ∧ 0 ≤ v) := by
  refine ⟨by decide, by decide, by decide, by decide, by decide, by decide, ?_, ?_⟩
  · intro s
    rw [pyIntParse_priceConversion s]
    by_cases he : priceConversion s = ""
    · simp [he]
    · simp [he]
  · intro s v hv
    rw [pyIntParse_priceConversion s] at hv
    by_cases he : priceConversion s = ""
    · rw [if_pos he] at hv
      exact absurd hv (by simp)
    · rw [if_neg he, Option.some.injEq] at hv
      refine ⟨hv.symm, ?_⟩
      rw [← hv]
      exact Int.natCast_nonneg _

/-- C3 witness: the general clauses applied at `"12.50"`. -/
theorem c3_witness :
    (12 : Int) = ((digitsVal (priceConversion "12.50").data : Nat) : Int) ∧
    (0 : Int) ≤ 12 :=
  (c3_price_normalization.2.2.2.2.2.2.2) "12.50" 12 (by decide)

/-- C4: an offer id known to the marketplace that matches no feed row's
code receives a zero-stock record from `create_stocks` and no record at
all from `create_prices`. -/
theorem c4_zero_fill (feed : List FeedRow) (ids ids2 : List String)
    (oid : String) (stocks : List SellerStock)
    (hin : oid ∈ ids) (hno : ∀ r ∈ feed, r.code ≠ oid)
    (hs : sellerCreateStocks feed ids = some stocks) :
    (⟨oid, 0⟩ : SellerStock) ∈ stocks ∧
    ∀ p ∈ sellerCreatePrices feed ids2, p.offer_id ≠ oid := by
  constructor
  · unfold sellerCreateStocks at hs
    rw [Option.map_eq_some'] at hs
    obtain ⟨⟨recs, rem⟩, hl, heq⟩ := hs
    subst heq
    have hrem : oid ∈ rem :=
      sellerStocksLoop_keeps_unmatched feed ids recs rem oid hin hno hl
    exact List.mem_append_right _ (List.mem_map.mpr ⟨oid, hrem, rfl⟩)
  · intro p hp
    obtain ⟨r, hr, _, hpr⟩ := sellerCreatePrices_mem_src feed ids2 p hp
    rw [hpr]
    exact hno r hr

/-- C4 witness: `"A"` is known but absent from the feed; it gets the
zero-stock record and no price record. -/
theorem c4_witness :
    (⟨"A", 0⟩ : SellerStock) ∈ ([⟨"B", 5⟩, ⟨"A", 0⟩] : List SellerStock) ∧
    ∀ p ∈ sellerCreatePrices [⟨"B", "5", "9.00"⟩] ["A", "B"], p.offer_id ≠ "A" :=
  c4_zero_fill [⟨"B", "5", "9.00"⟩] ["A", "B"] ["A", "B"] "A" [⟨"B", 5⟩, ⟨"A", 0⟩]
    (by decide) (by decide) (by decide)


/-- C5 counterexample: a single page carrying the duplicate offer id
`"A"` twice (count-based signal satisfied: total 2 = 2 items) makes
`get_offer_ids` return `["A", "A"]` — the result is not de-duplicated, so
the claim's "no identifier appearing twice" fails. -/
theorem c5_counterexample :
    sellerPagesEnd [⟨[⟨"A"⟩, ⟨"A"⟩], 2, ""⟩] 0 = true ∧
    sellerGetOfferIds [⟨[⟨"A"⟩, ⟨"A"⟩], 2, ""⟩] = some ["A", "A"] ∧
    ¬ (["A", "A"] : List String).Nodup := by decide

/-- C5 amended: when the continuation signal is first satisfied at the
final page (count-based for Ozon, token-based for Yandex), both
`get_offer_ids` loops terminate there and return the concatenation — not
the de-duplicated union — of all fetched pages' offer identifiers, in
page order. -/
theorem c5_pagination_termination (sp : List SellerPage) (mp : List MarketPage)
    (hsp : sellerPagesEnd sp 0 = true) (hmp : marketPagesEnd mp = true) :
    sellerGetOfferIds sp =
      some (((sp.map SellerPage.items).flatten).map SellerItem.offer_id) ∧
    marketGetOfferIds mp =
      some (((mp.map MarketPage.offerMappingEntries).flatten).map
        (fun e => e.offer.shopSku)) := by
  constructor
  · unfold sellerGetOfferIds
    rw [sellerPagesLoop_of_end sp [] (by simpa using hsp)]
    simp
  · unfold marketGetOfferIds
    rw [marketPagesLoop_of_end mp [] hmp]
    simp

/-- C5 witness: two pages per marketplace, stopping signals at the second
page of each stream. -/
theorem c5_witness :
    sellerGetOfferIds [⟨[⟨"A"⟩], 2, "x"⟩, ⟨[⟨"B"⟩], 2, "y"⟩]
      = some (((([⟨[⟨"A"⟩], 2, "x"⟩, ⟨[⟨"B"⟩], 2, "y"⟩] : List SellerPage).map
          SellerPage.items).flatten).map SellerItem.offer_id) ∧
    marketGetOfferIds [⟨[⟨⟨"C"⟩⟩], "t"⟩, ⟨[⟨⟨"D"⟩⟩], ""⟩]
      = some (((([⟨[⟨⟨"C"⟩⟩], "t"⟩, ⟨[⟨⟨"D"⟩⟩], ""⟩] : List MarketPage).map
          MarketPage.offerMappingEntries).flatten).map (fun e => e.offer.shopSku)) :=
  c5_pagination_termination
    [⟨[⟨"A"⟩], 2, "x"⟩, ⟨[⟨"B"⟩], 2, "y"⟩]
    [⟨[⟨⟨"C"⟩⟩], "t"⟩, ⟨[⟨⟨"D"⟩⟩], ""⟩]
    (by decide) (by decide)

/-- C6: with chunk size `n ≥ 1` (`divide` raises for `n = 0`), the chunks
of `divide(lst, n)` concatenate back to `lst` in order, every chunk has at
most `n` elements, and every chunk but possibly the last has exactly `n`. -/
theorem c6_divide_round_trip {α : Type} (lst : List α) (n : Nat)
    (chunks : List (List α)) (hn : 0 < n) (hd : divide lst n = some chunks) :
    chunks.flatten = lst ∧
    (∀ c ∈ chunks, c.length ≤ n) ∧
    (∀ i, i + 1 < chunks.length → (chunks.getD i []).length = n) := by
  unfold divide at hd
  rw [if_neg (Nat.pos_iff_ne_zero.mp hn), Option.some.injEq] at hd
  subst hd
  exact ⟨divideAux_flatten n hn lst.length lst (le_refl _),
    fun c hc => divideAux_chunk_le n lst.length lst c hc,
    fun i hi => divideAux_full_chunks n hn lst.length lst i (le_refl _) hi⟩

/-- C6 witness: `divide([1..5], 2) = [[1,2],[3,4],[5]]`. -/
theorem c6_witness :
    ([[1, 2], [3, 4], [5]] : List (List Nat)).flatten = [1, 2, 3, 4, 5] ∧
    (∀ c ∈ ([[1, 2], [3, 4], [5]] : List (List Nat)), c.length ≤ 2) ∧
    (∀ i, i + 1 < ([[1, 2], [3, 4], [5]] : List (List Nat)).length →
      (([[1, 2], [3, 4], [5]] : List (List Nat)).getD i []).length = 2) :=
  c6_divide_round_trip [1, 2, 3, 4, 5] 2 [[1, 2], [3, 4], [5]] (by decide) (by decide)


/-- C7 counterexample: `create_stocks` removes the matched code from the
caller's `offer_ids` list — after a pass matching `"A"`, the list passed
in as `["A"]` is left empty, so the collection is not unchanged. -/
theorem c7_counterexample :
    sellerStocksLoop [⟨"A", "5", "9.00"⟩] ["A"] = some ([⟨"A", 5⟩], []) ∧
    (([] : List String) ≠ ["A"]) := by decide

/-- C7 amended: the reconciliation outputs are a function of the inputs,
but `create_stocks` does mutate the caller's offer-id list: the list
after the call is a sublist of the input, and is unchanged exactly when
no feed row's code occurs in it; the stock output is determined by the
loop's records plus zero-fill over that final list. -/
theorem c7_offer_ids_mutation (feed : List FeedRow) (ids : List String)
    (recs : List SellerStock) (rem : List String)
    (h : sellerStocksLoop feed ids = some (recs, rem)) :
    rem.Sublist ids ∧
    (rem = ids ↔ ∀ r ∈ feed, r.code ∉ ids) ∧
    sellerCreateStocks feed ids = some (recs ++ rem.map fun i => ⟨i, 0⟩) := by
  refine ⟨(sellerStocksLoop_perm feed ids recs rem h).2,
    sellerStocksLoop_ids_eq_iff feed ids recs rem h, ?_⟩
  unfold sellerCreateStocks
  rw [h]
  rfl

/-- C7 witness: a feed row matching nothing leaves the list unchanged. -/
theorem c7_witness :
    (["A"] : List String).Sublist ["A"] ∧
    ((["A"] : List String) = ["A"] ↔
      ∀ r ∈ ([⟨"X", "5", "9.00"⟩] : List FeedRow), r.code ∉ (["A"] : List String)) ∧
    sellerCreateStocks [⟨"X", "5", "9.00"⟩] ["A"]
      = some (([] : List SellerStock) ++ (["A"] : List String).map fun i => ⟨i, 0⟩) :=
  c7_offer_ids_mutation [⟨"X", "5", "9.00"⟩] ["A"] [] ["A"] (by decide)

/-- C8 counterexample: a matched feed row whose price text strips to the
empty string ("fails normalization" in the spec's sense) does not abort
the seller reconciliation: `create_stocks` succeeds and `create_prices`
silently emits a record with an empty price string. -/
theorem c8_counterexample :
    priceConversion "нет" = "" ∧
    sellerCreateStocks [⟨"A", "5", "нет"⟩] ["A"] = some [⟨"A", 5⟩] ∧
    sellerCreatePrices [⟨"A", "5", "нет"⟩] ["A"]
      = [⟨"UNKNOWN", "RUB", "A", "0", ""⟩] := by decide

/-- C8 amended: a matched row whose quantity descriptor fails `int`
parsing aborts `create_stocks` of both marketplaces (no records are
returned), and exactly then; a matched row whose price text strips to the
empty string aborts market `create_prices`, and exactly then; the seller
`create_prices` never aborts (it emits the raw digit string instead). -/
theorem c8_error_propagation (feed : List FeedRow) (ids : List String)
    (wh date : String) :
    (sellerCreateStocks feed ids = none ↔ hasBadQuantity feed ids = true) ∧
    (marketCreateStocks wh date feed ids = none ↔ hasBadQuantity feed ids = true) ∧
    (marketCreatePrices feed ids = none ↔
      (feed.any fun r => decide (r.code ∈ ids) && (priceConversion r.price == "")) = true) := by
  refine ⟨sellerCreateStocks_none_iff feed ids, ?_, marketCreatePrices_none_iff feed ids⟩
  rw [marketCreateStocks_eq_seller, Option.map_eq_none']
  exact sellerCreateStocks_none_iff feed ids

/-- C9 counterexample: the feed quantity descriptor `"-5"` parses, and
reconciliation succeeds with a stock record whose count is negative. -/
theorem c9_counterexample :
    quantityNormalizer "-5" = some (-5) ∧
    sellerCreateStocks [⟨"A", "-5", "9.00"⟩] ["A"] = some [⟨"A", -5⟩] ∧
    ((-5 : Int) < 0) := by decide

/-- C9 amended: when every feed quantity that parses is non-negative,
every stock record of both marketplaces carries a non-negative count
(zero-filled records always do); every market price record carries a
non-negative value with currency fixed `"RUR"`, and every seller price
record has currency fixed `"RUB"` (its value is a digit string). -/
theorem c9_record_ranges (feed : List FeedRow) (ids ids2 ids3 ids4 : List String)
    (wh date : String) (stocks : List SellerStock) (ms : List MarketStock)
    (ps : List MarketPrice)
    (hq : ∀ r ∈ feed, ∀ m : Int, quantityNormalizer r.quantity = some m → 0 ≤ m)
    (hs : sellerCreateStocks feed ids = some stocks)
    (hm : marketCreateStocks wh date feed ids4 = some ms)
    (hp : marketCreatePrices feed ids2 = some ps) :
    (∀ s ∈ stocks, 0 ≤ s.stock) ∧
    (∀ s ∈ ms, ∀ it ∈ s.items, 0 ≤ it.count) ∧
    (∀ p ∈ ps, 0 ≤ p.price.value ∧ p.price.currencyId = "RUR") ∧
    (∀ q ∈ sellerCreatePrices feed ids3, q.currency_code = "RUB") := by
  refine ⟨sellerCreateStocks_counts feed ids stocks hq hs, ?_, ?_, ?_⟩
  · rw [marketCreateStocks_eq_seller, Option.map_eq_some'] at hm
    obtain ⟨base, hbase, heq⟩ := hm
    subst heq
    intro s hsmem it hit
    obtain ⟨b, hb, rfl⟩ := List.mem_map.mp hsmem
    have hcount := sellerCreateStocks_counts feed ids4 base hq hbase b hb
    simp only [toMarketStock, List.mem_singleton] at hit
    rw [hit]
    exact hcount
  · intro p hpm
    exact marketCreatePrices_mem feed ids2 ps p hp hpm
  · intro q hqm
    obtain ⟨r, _, _, hqr⟩ := sellerCreatePrices_mem_src feed ids3 q hqm
    rw [hqr]

/-- C9 witness: a concrete run with sentinel and literal quantities. -/
theorem c9_witness :
    (∀ s ∈ ([⟨"A", 100⟩, ⟨"B", 0⟩] : List SellerStock), 0 ≤ s.stock) ∧
    (∀ s ∈ ([⟨"A", "w", [⟨100, "FIT", "d"⟩]⟩, ⟨"B", "w", [⟨0, "FIT", "d"⟩]⟩] : List MarketStock),
      ∀ it ∈ s.items, 0 ≤ it.count) ∧
    (∀ p ∈ ([⟨"A", ⟨9, "RUR"⟩⟩] : List MarketPrice),
      0 ≤ p.price.value ∧ p.price.currencyId = "RUR") ∧
    (∀ q ∈ sellerCreatePrices [⟨"A", ">10", "9.00"⟩] ["A"], q.currency_code = "RUB") :=
  c9_record_ranges [⟨"A", ">10", "9.00"⟩] ["A", "B"] ["A"] ["A"] ["A", "B"] "w" "d"
    [⟨"A", 100⟩, ⟨"B", 0⟩]
    [⟨"A", "w", [⟨100, "FIT", "d"⟩]⟩, ⟨"B", "w", [⟨0, "FIT", "d"⟩]⟩]
    [⟨"A", ⟨9, "RUR"⟩⟩]
    (by decide) (by decide) (by decide) (by decide)


/-- C10: `upload_stocks` returns the pair `(not_empty, stocks)` where
`stocks` is the full reconciled list and `not_empty` is its filter to
records with non-zero count — an order-preserving subsequence containing
exactly the non-zero-count records; likewise for the market variant
(whose predicate reads the first item's count). -/
theorem c10_upload_stocks_pair (feed : List FeedRow) (ids ids2 : List String)
    (wh date : String) (stocks : List SellerStock) (ms : List MarketStock)
    (hs : sellerCreateStocks feed ids = some stocks)
    (hm : marketCreateStocks wh date feed ids2 = some ms) :
    sellerUploadStocks feed ids
      = some (stocks.filter (fun s => s.stock != 0), stocks) ∧
    (stocks.filter (fun s => s.stock != 0)).Sublist stocks ∧
    (∀ s ∈ stocks.filter (fun s => s.stock != 0), s.stock ≠ 0) ∧
    (∀ s ∈ stocks, s.stock ≠ 0 → s ∈ stocks.filter (fun s => s.stock != 0)) ∧
    marketUploadStocks wh date feed ids2
      = some (ms.filter marketStockNonEmpty, ms) ∧
    (ms.filter marketStockNonEmpty).Sublist ms ∧
    (∀ s ∈ ms, ∀ it ∈ s.items.take 1, it.count ≠ 0 →
      s ∈ ms.filter marketStockNonEmpty) := by
  refine ⟨?_, List.filter_sublist _, ?_, ?_, ?_, List.filter_sublist _, ?_⟩
  · unfold sellerUploadStocks
    rw [hs]
    rfl
  · intro s hsf
    have := (List.mem_filter.mp hsf).2
    simpa using this
  · intro s hsm hne
    exact List.mem_filter.mpr ⟨hsm, by simpa using hne⟩
  · unfold marketUploadStocks
    rw [hm]
    rfl
  · intro s hsm it hit hne
    refine List.mem_filter.mpr ⟨hsm, ?_⟩
    unfold marketStockNonEmpty
    cases hitems : s.items with
    | nil => rfl
    | cons a t =>
      rw [hitems] at hit
      simp only [List.take_succ_cons, List.take_zero, List.mem_singleton] at hit
      subst hit
      simpa using hne

/-- C10 witness: one matched non-zero row and one zero-filled offer. -/
theorem c10_witness :
    sellerUploadStocks [⟨"A", "7", "9.00"⟩] ["A", "B"]
      = some ((([⟨"A", 7⟩, ⟨"B", 0⟩] : List SellerStock).filter (fun s => s.stock != 0)),
          ([⟨"A", 7⟩, ⟨"B", 0⟩] : List SellerStock)) ∧
    (([⟨"A", 7⟩, ⟨"B", 0⟩] : List SellerStock).filter (fun s => s.stock != 0)).Sublist
      [⟨"A", 7⟩, ⟨"B", 0⟩] ∧
    (∀ s ∈ ([⟨"A", 7⟩, ⟨"B", 0⟩] : List SellerStock).filter (fun s => s.stock != 0),
      s.stock ≠ 0) ∧
    (∀ s ∈ ([⟨"A", 7⟩, ⟨"B", 0⟩] : List SellerStock), s.stock ≠ 0 →
      s ∈ ([⟨"A", 7⟩, ⟨"B", 0⟩] : List SellerStock).filter (fun s => s.stock != 0)) ∧
    marketUploadStocks "w" "d" [⟨"A", "7", "9.00"⟩] ["A"]
      = some ((([⟨"A", "w", [⟨7, "FIT", "d"⟩]⟩] : List MarketStock).filter
          marketStockNonEmpty), ([⟨"A", "w", [⟨7, "FIT", "d"⟩]⟩] : List MarketStock)) ∧
    (([⟨"A", "w", [⟨7, "FIT", "d"⟩]⟩] : List MarketStock).filter
      marketStockNonEmpty).Sublist [⟨"A", "w", [⟨7, "FIT", "d"⟩]⟩] ∧
    (∀ s ∈ ([⟨"A", "w", [⟨7, "FIT", "d"⟩]⟩] : List MarketStock),
      ∀ it ∈ s.items.take 1, it.count ≠ 0 →
        s ∈ ([⟨"A", "w", [⟨7, "FIT", "d"⟩]⟩] : List MarketStock).filter
          marketStockNonEmpty) :=
  c10_upload_stocks_pair [⟨"A", "7", "9.00"⟩] ["A", "B"] ["A"] "w" "d"
    [⟨"A", 7⟩, ⟨"B", 0⟩] [⟨"A", "w", [⟨7, "FIT", "d"⟩]⟩]
    (by decide) (by decide)

end SellerApis
